import Mathlib

/-!
Formal model of the StanleyTG ledger: the balance store in `database.py`
and the command handlers in `bot.py`.

Monetary amounts are modeled as exact rationals, following the exact-decimal
semantics of spec section 3.  `round_bytes` models
`Decimal(str(x)).quantize(Decimal('0.01'), rounding=ROUND_HALF_UP)`, i.e.
rounding to two decimal places with ties going away from zero.  The SQLite
`balances` table is modeled as an association list of rows
`((user_id, chat_id), balance)`; each SQL statement is translated row by row.
`ORDER BY RANDOM()` is modeled by an explicit `shuffle` argument supplied by
the environment, and `random.choice([True, False])` by an explicit `coin`
argument.
-/

namespace StanleyTG

attribute [local semireducible] Rat.add Rat.mul Rat.sub Rat.inv Rat.ofScientific

/-- Model of `Database.round_bytes` (database.py, lines 52-56): round to two
decimal places, half-up (Python decimal `ROUND_HALF_UP` rounds ties away from
zero). -/
def round_bytes (q : ℚ) : ℚ :=
  if q < 0 then -(((⌊100 * (-q) + 1/2⌋ : ℤ) : ℚ) / 100)
  else ((⌊100 * q + 1/2⌋ : ℤ) : ℚ) / 100

/-- A rational amount that is a whole number of cents, i.e. representable with
two decimal places (the spec's data model for balances). -/
def centQ (q : ℚ) : Prop := ((100 : ℚ) * q).den = 1

instance (q : ℚ) : Decidable (centQ q) := by unfold centQ; infer_instance

theorem cent_exists {q : ℚ} (h : centQ q) : ∃ k : ℤ, q = (k : ℚ) / 100 := by
  refine ⟨((100 : ℚ) * q).num, ?_⟩
  have h1 : ((((100 : ℚ) * q).num : ℚ)) = (100 : ℚ) * q := by
    conv_rhs => rw [← Rat.num_div_den ((100 : ℚ) * q)]
    rw [h]
    simp
  field_simp [h1]

theorem cent_intro (k : ℤ) : centQ ((k : ℚ) / 100) := by
  unfold centQ
  have : (100 : ℚ) * ((k : ℚ) / 100) = (k : ℚ) := by
    field_simp
  rw [this]
  exact Rat.den_intCast k

theorem centQ_add {a b : ℚ} (ha : centQ a) (hb : centQ b) : centQ (a + b) := by
  obtain ⟨j, rfl⟩ := cent_exists ha
  obtain ⟨k, rfl⟩ := cent_exists hb
  have : (j : ℚ) / 100 + (k : ℚ) / 100 = ((j + k : ℤ) : ℚ) / 100 := by
    push_cast
    ring
  rw [this]
  exact cent_intro _

theorem centQ_neg {a : ℚ} (ha : centQ a) : centQ (-a) := by
  obtain ⟨j, rfl⟩ := cent_exists ha
  have : -((j : ℚ) / 100) = ((-j : ℤ) : ℚ) / 100 := by
    push_cast
    ring
  rw [this]
  exact cent_intro _

theorem centQ_sub {a b : ℚ} (ha : centQ a) (hb : centQ b) : centQ (a - b) := by
  have := centQ_add ha (centQ_neg hb)
  simpa [sub_eq_add_neg] using this

theorem round_bytes_centQ (q : ℚ) : centQ (round_bytes q) := by
  unfold round_bytes
  split
  · have : -((((⌊100 * (-q) + 1/2⌋ : ℤ) : ℚ)) / 100) = (((-⌊100 * (-q) + 1/2⌋ : ℤ) : ℚ)) / 100 := by
      push_cast
      ring
    rw [this]
    exact cent_intro _
  · exact cent_intro _

theorem floor_half : ⌊(1/2 : ℚ)⌋ = 0 := by
  rw [Int.floor_eq_zero_iff]
  constructor <;> norm_num

/-- Rounding fixes every two-decimal value: an amount that is already a whole
number of cents is returned unchanged. -/
theorem round_bytes_eq_of_centQ {q : ℚ} (h : centQ q) : round_bytes q = q := by
  obtain ⟨k, rfl⟩ := cent_exists h
  unfold round_bytes
  split
  · have h1 : 100 * (-((k : ℚ) / 100)) + 1/2 = ((-k : ℤ) : ℚ) + 1/2 := by
      push_cast
      ring
    rw [h1, Int.floor_int_add, floor_half]
    push_cast
    ring
  · have h1 : 100 * ((k : ℚ) / 100) + 1/2 = (k : ℚ) + 1/2 := by
      field_simp
    rw [h1, Int.floor_int_add, floor_half]
    push_cast
    ring

theorem round_bytes_idem (q : ℚ) : round_bytes (round_bytes q) = round_bytes q :=
  round_bytes_eq_of_centQ (round_bytes_centQ q)

theorem round_bytes_nonneg {q : ℚ} (h : 0 ≤ q) : 0 ≤ round_bytes q := by
  unfold round_bytes
  rw [if_neg (by linarith)]
  have h1 : (0 : ℤ) ≤ ⌊100 * q + 1/2⌋ := by
    apply Int.floor_nonneg.mpr
    linarith
  positivity

theorem round_bytes_le {q : ℚ} (h : 0 ≤ q) : round_bytes q ≤ q + 1/200 := by
  unfold round_bytes
  rw [if_neg (by linarith)]
  have h1 : ((⌊100 * q + 1/2⌋ : ℤ) : ℚ) ≤ 100 * q + 1/2 := Int.floor_le _
  linarith

theorem round_bytes_neg {q : ℚ} (h : round_bytes q < 0) : 0 > round_bytes q := h

/-- The `balances` table (database.py, lines 20-27): one row per
`(user_id, chat_id)` primary key, holding the stored balance. -/
abbrev Store : Type := List ((ℤ × ℤ) × ℚ)

/-- Model of `SELECT balance FROM balances WHERE user_id = ? AND chat_id = ?`:
the first row matching the key, if any. -/
def lookup_balance : Store → ℤ → ℤ → Option ℚ
  | [], _, _ => none
  | p :: t, u, c => if p.1 = (u, c) then some p.2 else lookup_balance t u c

/-- Model of `UPDATE balances SET balance = balance + d WHERE user_id = ? AND
chat_id = ?`: every row matching the key has the delta added; a missing row is
left missing (the UPDATE affects zero rows). -/
def upd_balance (s : Store) (u c : ℤ) (d : ℚ) : Store :=
  s.map (fun p => if p.1 = (u, c) then (p.1, p.2 + d) else p)

/-- Model of `Database.get_balance` (database.py, lines 58-68): the stored
balance, or 0 for a missing row, passed through `round_bytes`. -/
def get_balance (s : Store) (u c : ℤ) : ℚ :=
  round_bytes ((lookup_balance s u c).getD 0)

/-- Model of `Database.add_bytes` (database.py, lines 70-84): round the amount,
then `INSERT ... ON CONFLICT(user_id, chat_id) DO UPDATE SET balance = balance + ?`.
No validation of the amount takes place.  (The Python function additionally
returns `get_balance` of the result.) -/
def add_bytes (s : Store) (u c : ℤ) (q : ℚ) : Store :=
  let r := round_bytes q
  match lookup_balance s u c with
  | some _ => upd_balance s u c r
  | none => s ++ [((u, c), r)]

/-- Model of `Database.subtract_bytes` (database.py, lines 86-101): round the
amount, read the current balance, refuse if it is smaller than the amount,
otherwise run the (unconditional) UPDATE and report success. -/
def subtract_bytes (s : Store) (u c : ℤ) (q : ℚ) : Bool × Store :=
  let r := round_bytes q
  if get_balance s u c < r then (false, s)
  else (true, upd_balance s u c (-r))

/-- Model of `Database.transfer_bytes` (database.py, lines 103-109): round the
amount, debit the sender via `subtract_bytes`; on success credit the recipient
via `add_bytes` with the same rounded amount. -/
def transfer_bytes (s : Store) (from_user to_user c : ℤ) (q : ℚ) : Bool × Store :=
  let amount := round_bytes q
  let d := subtract_bytes s from_user c amount
  if d.1 then (true, add_bytes d.2 to_user c amount) else (false, s)

theorem centQ_zero : centQ 0 := by
  have := cent_intro 0
  simpa using this

theorem round_bytes_zero : round_bytes 0 = 0 := round_bytes_eq_of_centQ centQ_zero

theorem lookup_cons (p : (ℤ × ℤ) × ℚ) (t : Store) (u c : ℤ) :
    lookup_balance (p :: t) u c = if p.1 = (u, c) then some p.2 else lookup_balance t u c := rfl

theorem upd_cons (p : (ℤ × ℤ) × ℚ) (t : Store) (u c : ℤ) (d : ℚ) :
    upd_balance (p :: t) u c d =
      (if p.1 = (u, c) then (p.1, p.2 + d) else p) :: upd_balance t u c d := rfl

theorem lookup_upd_self (s : Store) (u c : ℤ) (d : ℚ) :
    lookup_balance (upd_balance s u c d) u c =
      (lookup_balance s u c).map (fun v => v + d) := by
  induction s with
  | nil => rfl
  | cons p t ih =>
    by_cases h : p.1 = (u, c)
    · simp [upd_balance, lookup_balance, h]
    · simpa [upd_balance, lookup_balance, h] using ih

theorem lookup_upd_other (s : Store) {u c u2 c2 : ℤ} (h : ((u2, c2) : ℤ × ℤ) ≠ (u, c)) (d : ℚ) :
    lookup_balance (upd_balance s u c d) u2 c2 = lookup_balance s u2 c2 := by
  induction s with
  | nil => rfl
  | cons p t ih =>
    rw [upd_cons]
    by_cases hp : p.1 = (u, c)
    · have hp2 : p.1 ≠ (u2, c2) := by rw [hp]; exact fun hx => h hx.symm
      rw [if_pos hp]
      show (if p.1 = (u2, c2) then some (p.2 + d) else lookup_balance (upd_balance t u c d) u2 c2) = _
      rw [if_neg hp2, lookup_cons, if_neg hp2]
      exact ih
    · rw [if_neg hp, lookup_cons, lookup_cons]
      by_cases hq : p.1 = (u2, c2)
      · rw [if_pos hq, if_pos hq]
      · rw [if_neg hq, if_neg hq]
        exact ih

theorem lookup_none_upd {s : Store} {u c : ℤ} (h : lookup_balance s u c = none) (d : ℚ) :
    upd_balance s u c d = s := by
  induction s with
  | nil => rfl
  | cons p t ih =>
    by_cases hp : p.1 = (u, c)
    · simp [lookup_balance, hp] at h
    · simp only [lookup_balance, if_neg hp] at h
      simp [upd_balance, hp] at ih ⊢
      exact ih h

theorem lookup_append_of_none {s : Store} {u c : ℤ} (h : lookup_balance s u c = none)
    (row : (ℤ × ℤ) × ℚ) :
    lookup_balance (s ++ [row]) u c = if row.1 = (u, c) then some row.2 else none := by
  induction s with
  | nil => rfl
  | cons p t ih =>
    by_cases hp : p.1 = (u, c)
    · simp [lookup_balance, hp] at h
    · simp only [lookup_balance, if_neg hp] at h
      simpa [lookup_balance, hp] using ih h

theorem lookup_mem {s : Store} {u c : ℤ} {v : ℚ} (h : lookup_balance s u c = some v) :
    ((u, c), v) ∈ s := by
  induction s with
  | nil => simp [lookup_balance] at h
  | cons p t ih =>
    rw [lookup_cons] at h
    by_cases hp : p.1 = (u, c)
    · rw [if_pos hp] at h
      have hv : p.2 = v := Option.some.inj h
      have hpe : p = ((u, c), v) := by
        calc p = (p.1, p.2) := rfl
        _ = ((u, c), v) := by rw [hp, hv]
      rw [← hpe]
      exact List.mem_cons_self p t
    · rw [if_neg hp] at h
      exact List.mem_cons_of_mem _ (ih h)

theorem lookup_none_iff {s : Store} {u c : ℤ} :
    lookup_balance s u c = none ↔ (u, c) ∉ s.map Prod.fst := by
  induction s with
  | nil => simp [lookup_balance]
  | cons p t ih =>
    rw [lookup_cons, List.map_cons]
    by_cases hp : p.1 = (u, c)
    · rw [if_pos hp, hp]
      constructor
      · intro hx
        exact absurd hx (by simp)
      · intro hx
        exact absurd (List.mem_cons_self _ _) hx
    · rw [if_neg hp, ih]
      constructor
      · intro hx hmem
        rcases List.mem_cons.mp hmem with h1 | h1
        · exact hp h1.symm
        · exact hx h1
      · intro hx hmem
        exact hx (List.mem_cons_of_mem _ hmem)

theorem lookup_eq_of_mem {s : Store} {u c : ℤ} {v : ℚ}
    (hnd : (s.map Prod.fst).Nodup) (h : ((u, c), v) ∈ s) :
    lookup_balance s u c = some v := by
  induction s with
  | nil => simp at h
  | cons p t ih =>
    simp only [List.map_cons, List.nodup_cons] at hnd
    rcases List.mem_cons.mp h with h1 | h1
    · rw [← h1]
      simp [lookup_balance]
    · have hp : p.1 ≠ (u, c) := by
        intro hx
        exact hnd.1 (hx ▸ (List.mem_map.mpr ⟨_, h1, rfl⟩))
      simp only [lookup_balance, if_neg hp]
      exact ih hnd.2 h1

theorem keys_upd (s : Store) (u c : ℤ) (d : ℚ) :
    (upd_balance s u c d).map Prod.fst = s.map Prod.fst := by
  induction s with
  | nil => rfl
  | cons p t ih =>
    by_cases hp : p.1 = (u, c) <;> simp [upd_balance, hp] at ih ⊢ <;> exact ih

theorem lookup_add_self (s : Store) (u c : ℤ) (q : ℚ) :
    lookup_balance (add_bytes s u c q) u c =
      some ((lookup_balance s u c).getD 0 + round_bytes q) := by
  unfold add_bytes
  cases hl : lookup_balance s u c with
  | some v => simp [lookup_upd_self, hl]
  | none => simp [lookup_append_of_none hl, hl]

theorem lookup_append_other {u c u2 c2 : ℤ} (s : Store)
    (hne : ((u, c) : ℤ × ℤ) ≠ (u2, c2)) (r : ℚ) :
    lookup_balance (s ++ [((u, c), r)]) u2 c2 = lookup_balance s u2 c2 := by
  induction s with
  | nil =>
    show (if ((u, c) : ℤ × ℤ) = (u2, c2) then some r else none) = none
    rw [if_neg hne]
  | cons p t ih =>
    show lookup_balance (p :: (t ++ [((u, c), r)])) u2 c2 = _
    rw [lookup_cons, lookup_cons]
    by_cases hq : p.1 = (u2, c2)
    · rw [if_pos hq, if_pos hq]
    · rw [if_neg hq, if_neg hq]
      exact ih

theorem lookup_add_other (s : Store) {u c u2 c2 : ℤ} (h : ((u2, c2) : ℤ × ℤ) ≠ (u, c)) (q : ℚ) :
    lookup_balance (add_bytes s u c q) u2 c2 = lookup_balance s u2 c2 := by
  unfold add_bytes
  cases hl : lookup_balance s u c with
  | some v => simpa using lookup_upd_other s h _
  | none => simpa using lookup_append_other s (fun hx => h hx.symm) _

/-- Well-formed store: primary-key uniqueness (as enforced by the SQL schema)
plus the spec's data model for balances, i.e. every stored balance is a
non-negative two-decimal value.  The empty store is well formed and, as proved
below, every ledger operation preserves well-formedness. -/
def WF (s : Store) : Prop :=
  (s.map Prod.fst).Nodup ∧ ∀ p ∈ s, 0 ≤ p.2 ∧ centQ p.2

instance (s : Store) : Decidable (WF s) := by
  unfold WF
  infer_instance

theorem WF_nil : WF [] := by
  constructor
  · simp
  · intro p hp
    simp at hp

theorem WF.get_eq {s : Store} (h : WF s) (u c : ℤ) :
    get_balance s u c = (lookup_balance s u c).getD 0 := by
  unfold get_balance
  cases hl : lookup_balance s u c with
  | none => simpa using round_bytes_zero
  | some v =>
    have hv := h.2 _ (lookup_mem hl)
    simpa using round_bytes_eq_of_centQ hv.2

theorem WF.get_nonneg {s : Store} (h : WF s) (u c : ℤ) : 0 ≤ get_balance s u c := by
  rw [h.get_eq]
  cases hl : lookup_balance s u c with
  | none => simp
  | some v =>
    have hv := h.2 _ (lookup_mem hl)
    simpa using hv.1

theorem WF.get_centQ {s : Store} (h : WF s) (u c : ℤ) : centQ (get_balance s u c) := by
  rw [h.get_eq]
  cases hl : lookup_balance s u c with
  | none => simpa using centQ_zero
  | some v =>
    have hv := h.2 _ (lookup_mem hl)
    simpa using hv.2

theorem subtract_fail {s : Store} {u c : ℤ} {q : ℚ}
    (hg : get_balance s u c < round_bytes q) :
    subtract_bytes s u c q = (false, s) := by
  unfold subtract_bytes
  rw [if_pos hg]

theorem subtract_success {s : Store} {u c : ℤ} {q : ℚ}
    (hg : ¬ get_balance s u c < round_bytes q) :
    subtract_bytes s u c q = (true, upd_balance s u c (-(round_bytes q))) := by
  unfold subtract_bytes
  rw [if_neg hg]

theorem WF_upd {s : Store} (h : WF s) {u c : ℤ} {d : ℚ} (hd : centQ d)
    (hval : ∀ v, lookup_balance s u c = some v → 0 ≤ v + d) :
    WF (upd_balance s u c d) := by
  refine ⟨by rw [keys_upd]; exact h.1, ?_⟩
  intro p hp
  rcases List.mem_map.mp hp with ⟨p0, hp0, hfp⟩
  by_cases hk : p0.1 = (u, c)
  · rw [if_pos hk] at hfp
    have hmem : ((u, c), p0.2) ∈ s := by
      rw [← hk]
      exact hp0
    have hl : lookup_balance s u c = some p0.2 := lookup_eq_of_mem h.1 hmem
    have h0 := h.2 p0 hp0
    rw [← hfp]
    exact ⟨hval p0.2 hl, centQ_add h0.2 hd⟩
  · rw [if_neg hk] at hfp
    rw [← hfp]
    exact h.2 p0 hp0

theorem WF_add {s : Store} (h : WF s) (u c : ℤ) {q : ℚ} (hq : 0 ≤ round_bytes q) :
    WF (add_bytes s u c q) := by
  unfold add_bytes
  cases hl : lookup_balance s u c with
  | some v =>
    refine WF_upd h (round_bytes_centQ q) (fun w hw => ?_)
    have h0 := (h.2 _ (lookup_mem hw)).1
    linarith
  | none =>
    constructor
    · rw [List.map_append]
      rw [List.nodup_append]
      refine ⟨h.1, by simp, ?_⟩
      intro a ha hb
      simp at hb
      rw [hb] at ha
      exact (lookup_none_iff.mp hl) ha
    · intro p hp
      rcases List.mem_append.mp hp with h1 | h1
      · exact h.2 p h1
      · simp at h1
        rw [h1]
        exact ⟨hq, round_bytes_centQ q⟩

theorem WF_sub {s : Store} (h : WF s) (u c : ℤ) (q : ℚ) :
    WF ((subtract_bytes s u c q).2) := by
  by_cases hg : get_balance s u c < round_bytes q
  · rw [subtract_fail hg]
    exact h
  · rw [subtract_success hg]
    refine WF_upd h (centQ_neg (round_bytes_centQ q)) (fun v hv => ?_)
    have hb : get_balance s u c = v := by
      rw [h.get_eq, hv]
      rfl
    rw [hb] at hg
    linarith [not_lt.mp hg]

theorem transfer_fail {s : Store} {a b c : ℤ} {q : ℚ}
    (hg : get_balance s a c < round_bytes q) :
    transfer_bytes s a b c q = (false, s) := by
  unfold transfer_bytes
  have hg2 : get_balance s a c < round_bytes (round_bytes q) := by
    rwa [round_bytes_idem]
  show (if (subtract_bytes s a c (round_bytes q)).1 = true
      then (true, add_bytes (subtract_bytes s a c (round_bytes q)).2 b c (round_bytes q))
      else (false, s)) = (false, s)
  rw [subtract_fail hg2]
  rfl

theorem transfer_success {s : Store} {a b c : ℤ} {q : ℚ}
    (hg : ¬ get_balance s a c < round_bytes q) :
    transfer_bytes s a b c q =
      (true, add_bytes (upd_balance s a c (-(round_bytes q))) b c (round_bytes q)) := by
  unfold transfer_bytes
  have hg2 : ¬ get_balance s a c < round_bytes (round_bytes q) := by
    rwa [round_bytes_idem]
  show (if (subtract_bytes s a c (round_bytes q)).1 = true
      then (true, add_bytes (subtract_bytes s a c (round_bytes q)).2 b c (round_bytes q))
      else (false, s)) = _
  rw [subtract_success hg2, round_bytes_idem]
  rfl

theorem WF_transfer {s : Store} (h : WF s) (a b c : ℤ) {q : ℚ} (hq : 0 ≤ round_bytes q) :
    WF ((transfer_bytes s a b c q).2) := by
  by_cases hg : get_balance s a c < round_bytes q
  · rw [transfer_fail hg]
    exact h
  · rw [transfer_success hg]
    have h1 : WF (upd_balance s a c (-(round_bytes q))) := by
      have := WF_sub h a c q
      rwa [subtract_success hg] at this
    exact WF_add h1 b c (by rwa [round_bytes_idem])

/-- Sum of all stored balances of one chat (the conserved quantity of spec
section 8). -/
def chat_total (s : Store) (c : ℤ) : ℚ :=
  ((s.filter (fun p => decide (p.1.2 = c))).map (fun p => p.2)).sum

theorem chat_total_cons (p : (ℤ × ℤ) × ℚ) (t : Store) (c : ℤ) :
    chat_total (p :: t) c = (if p.1.2 = c then p.2 else 0) + chat_total t c := by
  by_cases hp : p.1.2 = c <;> simp [chat_total, List.filter_cons, hp]

theorem chat_total_append_row (s : Store) (row : (ℤ × ℤ) × ℚ) (c : ℤ) :
    chat_total (s ++ [row]) c = chat_total s c + (if row.1.2 = c then row.2 else 0) := by
  by_cases hr : row.1.2 = c <;>
    simp [chat_total, List.filter_append, List.filter_cons, hr]

theorem chat_total_upd {s : Store} {u c : ℤ} {v : ℚ}
    (hnd : (s.map Prod.fst).Nodup) (hv : lookup_balance s u c = some v) (d : ℚ) :
    chat_total (upd_balance s u c d) c = chat_total s c + d := by
  induction s with
  | nil => simp [lookup_balance] at hv
  | cons p t ih =>
    rw [List.map_cons, List.nodup_cons] at hnd
    rw [upd_cons]
    by_cases hp : p.1 = (u, c)
    · have hkeys : (u, c) ∉ t.map Prod.fst := by
        rw [← hp]
        exact hnd.1
      have ht : upd_balance t u c d = t :=
        lookup_none_upd (lookup_none_iff.mpr hkeys) d
      have hc : p.1.2 = c := by rw [hp]
      rw [if_pos hp, ht, chat_total_cons, chat_total_cons]
      show (if p.1.2 = c then p.2 + d else 0) + chat_total t c = _
      rw [if_pos hc, if_pos hc]
      ring
    · rw [lookup_cons, if_neg hp] at hv
      rw [if_neg hp, chat_total_cons, chat_total_cons, ih hnd.2 hv]
      ring

theorem chat_total_add {s : Store} (hnd : (s.map Prod.fst).Nodup) (u c : ℤ) (q : ℚ) :
    chat_total (add_bytes s u c q) c = chat_total s c + round_bytes q := by
  unfold add_bytes
  cases hl : lookup_balance s u c with
  | some v => exact chat_total_upd hnd hl _
  | none =>
    rw [chat_total_append_row]
    norm_num

/-- Rows of the `message_rewards` table (database.py, lines 41-47): one row
per `(message_id, chat_id)` primary key. -/
abbrev Rewards : Type := List (ℤ × ℤ)

/-- Model of `Database.has_rewarded_message` (database.py, lines 111-121). -/
def has_rewarded_message (rw : Rewards) (message_id chat_id : ℤ) : Bool :=
  decide ((message_id, chat_id) ∈ rw)

/-- Model of `Database.mark_message_rewarded` (database.py, lines 123-132):
an `INSERT OR IGNORE` of the key. -/
def mark_message_rewarded (rw : Rewards) (message_id chat_id : ℤ) : Rewards :=
  if (message_id, chat_id) ∈ rw then rw else rw ++ [(message_id, chat_id)]

/-- The persistent state touched by the handlers: the balance store plus the
reward-gate table. -/
structure DB where
  balances : Store
  rewards : Rewards

/-- Model of the handler `reward_message` (bot.py, lines 35-86): skip if the
message is already rewarded, skip private chats, otherwise credit the tier
amount (media 3, else reply 2, else 1) to the author and mark the message. -/
def reward_message (d : DB) (user_id chat_id message_id : ℤ)
    (is_private has_media is_reply : Bool) : DB :=
  if has_rewarded_message d.rewards message_id chat_id then d
  else if is_private then d
  else
    let reward : ℚ := if has_media then 3 else if is_reply then 2 else 1
    { balances := add_bytes d.balances user_id chat_id reward,
      rewards := mark_message_rewarded d.rewards message_id chat_id }

inductive SendOutcome where
  | ok
  | nonPositiveAmount
  | noRecipient
  | selfSend
  | insufficientFunds
  | transferFailed
  deriving DecidableEq

/-- Model of the numeric core of the handler `send_bytes` (bot.py, lines
226-256), after the platform-specific argument parsing and recipient
resolution have produced a recipient id and an amount: reject non-positive
rounded amounts, a falsy (zero) recipient id (`if not recipient_id:`),
self-sends and insufficient balance, then run `transfer_bytes`. -/
def send_bytes (s : Store) (user_id recipient_id chat_id : ℤ) (q : ℚ) :
    SendOutcome × Store :=
  let amount := round_bytes q
  if amount ≤ 0 then (.nonPositiveAmount, s)
  else if recipient_id = 0 then (.noRecipient, s)
  else if recipient_id = user_id then (.selfSend, s)
  else if get_balance s user_id chat_id < amount then (.insufficientFunds, s)
  else
    let t := transfer_bytes s user_id recipient_id chat_id amount
    if t.1 then (.ok, t.2) else (.transferFailed, s)

inductive FlipOutcome where
  | win (rake winnings : ℚ)
  | lose
  | belowMin
  | aboveMax
  | insufficientFunds
  | deductFailed
  deriving DecidableEq

/-- Model of the numeric core of `flip_command` (bot.py, lines 263-332).
`coin` stands for the draw `random.choice([True, False])`, supplied by the
environment; `True` is a win.  On a win the handler credits back
`round_bytes(amount + winnings)` where `rake = round_bytes(amount * 0.01)`
and `winnings = round_bytes(amount - rake)`. -/
def flip_command (s : Store) (user_id chat_id : ℤ) (q : ℚ) (coin : Bool) :
    FlipOutcome × Store :=
  let amount := round_bytes q
  if amount < 10 then (.belowMin, s)
  else if 1000 < amount then (.aboveMax, s)
  else if get_balance s user_id chat_id < amount then (.insufficientFunds, s)
  else
    let d := subtract_bytes s user_id chat_id amount
    if d.1 then
      if coin then
        let rake := round_bytes (amount * (1/100))
        let winnings := round_bytes (amount - rake)
        let total_return := round_bytes (amount + winnings)
        (.win rake winnings, add_bytes d.2 user_id chat_id total_return)
      else (.lose, d.2)
    else (.deductFailed, s)

/-- Eligible rain recipients, per the SQL in `Database.get_random_users`
(database.py, lines 157-177): users of the chat holding a positive balance.
The `user_id != exclude_user_id` clause is only in the query when
`exclude_user_id` is truthy, i.e. nonzero, because the Python code branches
on `if exclude_user_id:`. -/
def eligible_users (s : Store) (chat_id exclude_user_id : ℤ) : List ℤ :=
  if exclude_user_id ≠ 0 then
    (s.filter (fun p => decide (p.1.2 = chat_id ∧ p.1.1 ≠ exclude_user_id ∧ 0 < p.2))).map
      (fun p => p.1.1)
  else
    (s.filter (fun p => decide (p.1.2 = chat_id ∧ 0 < p.2))).map (fun p => p.1.1)

/-- Model of `Database.get_random_users`: `ORDER BY RANDOM()` is modeled by
the `shuffle` argument (in the theorems below, a permutation of the eligible
rows chosen by the environment) and `LIMIT count` by `take`. -/
def get_random_users (s : Store) (chat_id : ℤ) (count : ℕ) (exclude_user_id : ℤ)
    (shuffle : List ℤ) : List ℤ :=
  (shuffle.filter (fun u => decide (u ∈ eligible_users s chat_id exclude_user_id))).take count

inductive RainOutcome where
  | ok (recipients : List ℤ)
  | nonPositiveAmount
  | nonPositiveCount
  | insufficientFunds
  | insufficientRecipients
  | deductFailed
  deriving DecidableEq

/-- Model of the numeric core of `rain_command` (bot.py, lines 334-407):
validate the per-user amount and the count, check the sender's balance
against `round_bytes(amount_per_user * count)`, fetch the random recipients,
fail if fewer than `count` were found, then debit the sender and credit each
recipient with `amount_per_user`.  (The Python code parses `count` as `int`
and rejects `count <= 0`; the model uses `ℕ` with the guard `count = 0`.) -/
def rain_command (s : Store) (user_id chat_id : ℤ) (q : ℚ) (count : ℕ)
    (shuffle : List ℤ) : RainOutcome × Store :=
  let amount_per_user := round_bytes q
  if amount_per_user ≤ 0 then (.nonPositiveAmount, s)
  else if count = 0 then (.nonPositiveCount, s)
  else
    let total_amount := round_bytes (amount_per_user * (count : ℚ))
    if get_balance s user_id chat_id < total_amount then (.insufficientFunds, s)
    else
      let recipients := get_random_users s chat_id count user_id shuffle
      if recipients.length < count then (.insufficientRecipients, s)
      else
        let d := subtract_bytes s user_id chat_id total_amount
        if d.1 then
          (.ok recipients,
            recipients.foldl (fun st r => add_bytes st r chat_id amount_per_user) d.2)
        else (.deductFailed, s)

theorem flip_return_nonneg {a : ℚ} (h10 : 10 ≤ a) :
    0 ≤ round_bytes (a + round_bytes (a - round_bytes (a * (1/100)))) := by
  have h1 : 0 ≤ a * (1/100) := by linarith
  have h2 : round_bytes (a * (1/100)) ≤ a * (1/100) + 1/200 := round_bytes_le h1
  have h3 : 0 ≤ a - round_bytes (a * (1/100)) := by linarith
  have h4 : 0 ≤ round_bytes (a - round_bytes (a * (1/100))) := round_bytes_nonneg h3
  exact round_bytes_nonneg (by linarith)

theorem flip_below {s : Store} {u c : ℤ} {q : ℚ} (h : round_bytes q < 10) (coin : Bool) :
    flip_command s u c q coin = (.belowMin, s) := by
  simp only [flip_command]
  rw [if_pos h]

theorem flip_above {s : Store} {u c : ℤ} {q : ℚ} (h10 : ¬ round_bytes q < 10)
    (h : 1000 < round_bytes q) (coin : Bool) :
    flip_command s u c q coin = (.aboveMax, s) := by
  simp only [flip_command]
  rw [if_neg h10, if_pos h]

theorem flip_funds_eq {s : Store} {u c : ℤ} {q : ℚ} (h10 : ¬ round_bytes q < 10)
    (h1000 : ¬ 1000 < round_bytes q) (hbal : get_balance s u c < round_bytes q)
    (coin : Bool) :
    flip_command s u c q coin = (.insufficientFunds, s) := by
  simp only [flip_command]
  rw [if_neg h10, if_neg h1000, if_pos hbal]

theorem flip_win_eq {s : Store} {u c : ℤ} {q : ℚ}
    (h10 : ¬ round_bytes q < 10) (h1000 : ¬ 1000 < round_bytes q)
    (hbal : ¬ get_balance s u c < round_bytes q) :
    flip_command s u c q true =
      (.win (round_bytes (round_bytes q * (1/100)))
            (round_bytes (round_bytes q - round_bytes (round_bytes q * (1/100)))),
        add_bytes (upd_balance s u c (-(round_bytes q))) u c
          (round_bytes (round_bytes q +
            round_bytes (round_bytes q - round_bytes (round_bytes q * (1/100)))))) := by
  simp only [flip_command]
  rw [if_neg h10, if_neg h1000, if_neg hbal]
  have hbal2 : ¬ get_balance s u c < round_bytes (round_bytes q) := by
    rwa [round_bytes_idem]
  rw [subtract_success hbal2, round_bytes_idem]
  rfl

theorem flip_lose_eq {s : Store} {u c : ℤ} {q : ℚ}
    (h10 : ¬ round_bytes q < 10) (h1000 : ¬ 1000 < round_bytes q)
    (hbal : ¬ get_balance s u c < round_bytes q) :
    flip_command s u c q false = (.lose, upd_balance s u c (-(round_bytes q))) := by
  simp only [flip_command]
  rw [if_neg h10, if_neg h1000, if_neg hbal]
  have hbal2 : ¬ get_balance s u c < round_bytes (round_bytes q) := by
    rwa [round_bytes_idem]
  rw [subtract_success hbal2, round_bytes_idem]
  rfl

theorem WF_flip {s : Store} (h : WF s) (u c : ℤ) (q : ℚ) (coin : Bool) :
    WF ((flip_command s u c q coin).2) := by
  by_cases h10 : round_bytes q < 10
  · rw [flip_below h10]
    exact h
  by_cases h1000 : 1000 < round_bytes q
  · rw [flip_above h10 h1000]
    exact h
  by_cases hbal : get_balance s u c < round_bytes q
  · rw [flip_funds_eq h10 h1000 hbal]
    exact h
  have hbal2 : ¬ get_balance s u c < round_bytes (round_bytes q) := by
    rwa [round_bytes_idem]
  have hsub : WF ((true, upd_balance s u c (-(round_bytes q))) : Bool × Store).2 := by
    have h2 := WF_sub h u c (round_bytes q)
    rw [subtract_success hbal2, round_bytes_idem] at h2
    exact h2
  cases coin with
  | false =>
    rw [flip_lose_eq h10 h1000 hbal]
    exact hsub
  | true =>
    rw [flip_win_eq h10 h1000 hbal]
    refine WF_add hsub u c ?_
    rw [round_bytes_idem]
    exact flip_return_nonneg (not_lt.mp h10)

theorem get_random_users_length {s : Store} {c u : ℤ} (count : ℕ) {shuffle : List ℤ}
    (hperm : shuffle.Perm (eligible_users s c u)) :
    (get_random_users s c count u shuffle).length =
      min count (eligible_users s c u).length := by
  unfold get_random_users
  have hfill : shuffle.filter (fun x => decide (x ∈ eligible_users s c u)) = shuffle := by
    rw [List.filter_eq_self]
    intro a ha
    exact decide_eq_true (hperm.mem_iff.mp ha)
  rw [hfill, List.length_take, hperm.length_eq]

theorem rain_funds_eq {s : Store} {u c : ℤ} {q : ℚ} {count : ℕ} (shuffle : List ℤ)
    (hapu : ¬ round_bytes q ≤ 0) (hcount : ¬ count = 0)
    (hbal : get_balance s u c < round_bytes (round_bytes q * (count : ℚ))) :
    rain_command s u c q count shuffle = (.insufficientFunds, s) := by
  simp only [rain_command]
  rw [if_neg hapu, if_neg hcount, if_pos hbal]

theorem rain_few_eq {s : Store} {u c : ℤ} {q : ℚ} {count : ℕ} {shuffle : List ℤ}
    (hapu : ¬ round_bytes q ≤ 0) (hcount : ¬ count = 0)
    (hbal : ¬ get_balance s u c < round_bytes (round_bytes q * (count : ℚ)))
    (hlen : (get_random_users s c count u shuffle).length < count) :
    rain_command s u c q count shuffle = (.insufficientRecipients, s) := by
  simp only [rain_command]
  rw [if_neg hapu, if_neg hcount, if_neg hbal, if_pos hlen]

theorem WF_foldl_add {c : ℤ} {q : ℚ} (hq : 0 ≤ round_bytes q) :
    ∀ {s : Store}, WF s → ∀ l : List ℤ,
      WF (l.foldl (fun st r => add_bytes st r c q) s) := by
  intro s hs l
  induction l generalizing s with
  | nil => exact hs
  | cons x t ih => exact ih (WF_add hs x c hq)

theorem WF_rain {s : Store} (h : WF s) (u c : ℤ) (q : ℚ) (count : ℕ)
    (shuffle : List ℤ) : WF ((rain_command s u c q count shuffle).2) := by
  simp only [rain_command]
  by_cases hapu : round_bytes q ≤ 0
  · rw [if_pos hapu]
    exact h
  rw [if_neg hapu]
  by_cases hcount : count = 0
  · rw [if_pos hcount]
    exact h
  rw [if_neg hcount]
  by_cases hbal : get_balance s u c < round_bytes (round_bytes q * (count : ℚ))
  · rw [if_pos hbal]
    exact h
  rw [if_neg hbal]
  by_cases hlen : (get_random_users s c count u shuffle).length < count
  · rw [if_pos hlen]
    exact h
  rw [if_neg hlen]
  have hbal2 : ¬ get_balance s u c <
      round_bytes (round_bytes (round_bytes q * (count : ℚ))) := by
    rwa [round_bytes_idem]
  rw [subtract_success hbal2]
  have hsub := WF_sub h u c (round_bytes (round_bytes q * (count : ℚ)))
  rw [subtract_success hbal2] at hsub
  have hq : 0 ≤ round_bytes (round_bytes q) := by
    rw [round_bytes_idem]
    linarith [not_le.mp hapu]
  exact WF_foldl_add hq hsub _

theorem WF_reward {d : DB} (h : WF d.balances) (u c mid : ℤ) (pv me re : Bool) :
    WF ((reward_message d u c mid pv me re).balances) := by
  unfold reward_message
  split
  · exact h
  · split
    · exact h
    · exact WF_add h u c
        (round_bytes_nonneg (by cases me <;> cases re <;> norm_num))

/-- One ledger-touching operation, as dispatched by the handlers. -/
inductive Op where
  | add (u c : ℤ) (q : ℚ)
  | sub (u c : ℤ) (q : ℚ)
  | transfer (sender recipient c : ℤ) (q : ℚ)
  | flip (u c : ℤ) (q : ℚ) (coin : Bool)
  | rain (u c : ℤ) (q : ℚ) (count : ℕ) (shuffle : List ℤ)
  | reward (u c mid : ℤ) (is_private has_media is_reply : Bool)

/-- State transition of one operation on the persistent state. -/
def apply_op (d : DB) : Op → DB
  | .add u c q => { d with balances := add_bytes d.balances u c q }
  | .sub u c q => { d with balances := (subtract_bytes d.balances u c q).2 }
  | .transfer a b c q => { d with balances := (transfer_bytes d.balances a b c q).2 }
  | .flip u c q coin => { d with balances := (flip_command d.balances u c q coin).2 }
  | .rain u c q n sh => { d with balances := (rain_command d.balances u c q n sh).2 }
  | .reward u c mid pv me re => reward_message d u c mid pv me re

/-- Run a sequence of operations from the empty database. -/
def runOps (ops : List Op) : DB := ops.foldl apply_op ⟨[], []⟩

/-- Side condition of the amended non-negativity claim: every amount handed to
the raw credit primitives `add_bytes` and `transfer_bytes` rounds to a
non-negative value.  The flip, rain and reward flows validate their own
amounts, and `subtract_bytes` needs no restriction. -/
def okOp : Op → Prop
  | .add _ _ q => 0 ≤ round_bytes q
  | .transfer _ _ _ q => 0 ≤ round_bytes q
  | _ => True

instance : DecidablePred okOp := fun op => by
  cases op <;> unfold okOp <;> infer_instance

theorem WF_apply_op {d : DB} (h : WF d.balances) {op : Op} (hop : okOp op) :
    WF ((apply_op d op).balances) := by
  cases op with
  | add u c q => exact WF_add h u c hop
  | sub u c q => exact WF_sub h u c q
  | transfer a b c q => exact WF_transfer h a b c hop
  | flip u c q coin => exact WF_flip h u c q coin
  | rain u c q n sh => exact WF_rain h u c q n sh
  | reward u c mid pv me re => exact WF_reward h u c mid pv me re

theorem WF_foldl_ops (ops : List Op) (h : ∀ op ∈ ops, okOp op) :
    ∀ d : DB, WF d.balances → WF ((ops.foldl apply_op d).balances) := by
  induction ops with
  | nil => exact fun d hd => hd
  | cons op t ih =>
    intro d hd
    exact ih (fun o ho => h o (List.mem_cons_of_mem _ ho)) _
      (WF_apply_op hd (h op (List.mem_cons_self _ _)))

theorem WF_runOps (ops : List Op) (h : ∀ op ∈ ops, okOp op) :
    WF (runOps ops).balances :=
  WF_foldl_ops ops h ⟨[], []⟩ WF_nil

theorem send_ok_eq {s : Store} {a b c : ℤ} {q : ℚ}
    (hpos : ¬ round_bytes q ≤ 0) (hb0 : ¬ b = 0) (hne : ¬ b = a)
    (hbal : ¬ get_balance s a c < round_bytes q) :
    send_bytes s a b c q =
      (.ok, add_bytes (upd_balance s a c (-(round_bytes q))) b c (round_bytes q)) := by
  simp only [send_bytes]
  rw [if_neg hpos, if_neg hb0, if_neg hne, if_neg hbal]
  have h2 : ¬ get_balance s a c < round_bytes (round_bytes q) := by
    rwa [round_bytes_idem]
  rw [transfer_success h2, round_bytes_idem]
  rfl

theorem send_ok_inv {s : Store} {a b c : ℤ} {q : ℚ}
    (h : (send_bytes s a b c q).1 = SendOutcome.ok) :
    ¬ round_bytes q ≤ 0 ∧ ¬ b = 0 ∧ ¬ b = a ∧ ¬ get_balance s a c < round_bytes q := by
  by_cases hpos : round_bytes q ≤ 0
  · exfalso
    simp only [send_bytes] at h
    rw [if_pos hpos] at h
    exact SendOutcome.noConfusion h
  by_cases hb0 : b = 0
  · exfalso
    simp only [send_bytes] at h
    rw [if_neg hpos, if_pos hb0] at h
    exact SendOutcome.noConfusion h
  by_cases hne : b = a
  · exfalso
    simp only [send_bytes] at h
    rw [if_neg hpos, if_neg hb0, if_pos hne] at h
    exact SendOutcome.noConfusion h
  by_cases hbal : get_balance s a c < round_bytes q
  · exfalso
    simp only [send_bytes] at h
    rw [if_neg hpos, if_neg hb0, if_neg hne, if_pos hbal] at h
    exact SendOutcome.noConfusion h
  exact ⟨hpos, hb0, hne, hbal⟩

/-- Sequential idempotence of the reward flow: delivering the same message a
second time observes the gate marker (or repeats the same no-op) and leaves
the state unchanged. -/
theorem reward_message_twice (d : DB) (u c mid : ℤ) (pv me re : Bool) :
    reward_message (reward_message d u c mid pv me re) u c mid pv me re =
      reward_message d u c mid pv me re := by
  by_cases h1 : has_rewarded_message d.rewards mid c = true
  · have e1 : reward_message d u c mid pv me re = d := by
      unfold reward_message
      rw [if_pos h1]
    rw [e1, e1]
  · by_cases h2 : pv = true
    · have e1 : reward_message d u c mid pv me re = d := by
        unfold reward_message
        rw [if_neg h1, if_pos h2]
      rw [e1, e1]
    · have e1 : reward_message d u c mid pv me re =
          { balances := add_bytes d.balances u c (if me then 3 else if re then 2 else 1),
            rewards := mark_message_rewarded d.rewards mid c } := by
        unfold reward_message
        rw [if_neg h1, if_neg h2]
      rw [e1]
      have hmem : (mid, c) ∈ mark_message_rewarded d.rewards mid c := by
        unfold mark_message_rewarded
        split
        · assumption
        · exact List.mem_append.mpr (Or.inr (List.mem_singleton.mpr rfl))
      have h3 : has_rewarded_message (mark_message_rewarded d.rewards mid c) mid c = true :=
        decide_eq_true hmem
      unfold reward_message
      rw [if_pos h3]

/-- Claim C2, counterexample: the claim quantifies over all real amounts, but
`add_bytes` accepts a negative amount without validation, so a single
operation from the empty store already produces a negative observed balance:
after `add_bytes 0 0 (-1)` the balance of user 0 in chat 0 reads -1. -/
theorem negative_credit_negative_balance :
    get_balance (runOps [Op.add 0 0 (-1)]).balances 0 0 < 0 := by decide

/-- Claim C2, amended: starting from the empty store, for every sequence of
ledger operations (add_bytes, subtract_bytes, transfer_bytes, and the
flip/rain/reward flows built on them) in which every amount passed to
`add_bytes` or `transfer_bytes` rounds to a non-negative value, every balance
observed via `get_balance` is non-negative, for all integer user and chat
ids. -/
theorem nonneg_balances (ops : List Op) (h : ∀ op ∈ ops, okOp op) (u c : ℤ) :
    0 ≤ get_balance (runOps ops).balances u c :=
  (WF_runOps ops h).get_nonneg u c

/-- A sample run exercising every operation kind with non-negative credits. -/
def sampleOps : List Op :=
  [Op.add 1 5 (3/2), Op.add 2 5 20, Op.sub 1 5 1, Op.transfer 2 1 5 (1/4),
   Op.flip 2 5 10 true, Op.rain 2 5 1 1 [1], Op.reward 1 5 99 false true false]

/-- Witness for the amended claim C2 at a concrete operation sequence. -/
theorem nonneg_balances_witness :
    (∀ op ∈ sampleOps, okOp op) ∧ 0 ≤ get_balance (runOps sampleOps).balances 1 5 :=
  ⟨by decide, nonneg_balances sampleOps (by decide) 1 5⟩

/-- Claim C3, counterexample: `add_bytes` of the negative amount -1 on the
empty store does not fail and does not leave the balance unchanged: it
creates the row and the balance reads -1. -/
theorem add_bytes_negative_accepted :
    add_bytes ([] : Store) 0 0 (-1) = [((0, 0), -1)] ∧
    get_balance (add_bytes ([] : Store) 0 0 (-1)) 0 0 = -1 := by decide

/-- Claim C3, amended: `add_bytes` performs no validation at all.  For every
finite amount - negative ones included - it unconditionally adds the rounded
amount to the stored balance (creating the row if absent); there is no
`InvalidAmount` failure path.  (Non-finite floats are outside the exact-
decimal model; on them the Python `round_bytes` raises rather than returning
an error value.) -/
theorem add_bytes_unconditional (s : Store) (u c : ℤ) (q : ℚ) :
    lookup_balance (add_bytes s u c q) u c =
      some ((lookup_balance s u c).getD 0 + round_bytes q) :=
  lookup_add_self s u c q

/-- Claim C9: `add_bytes u c 0.005` from the empty store followed by
`get_balance` returns 0.01 (half-up at the second decimal), and rounding is
idempotent: `round_bytes (round_bytes x) = round_bytes x` for every amount. -/
theorem rounding_half_up_idem :
    (∀ u c : ℤ, get_balance (add_bytes ([] : Store) u c (1/200)) u c = 1/100) ∧
    ∀ x : ℚ, round_bytes (round_bytes x) = round_bytes x := by
  constructor
  · intro u c
    unfold get_balance
    rw [lookup_add_self, show lookup_balance ([] : Store) u c = none from rfl]
    show round_bytes ((0 : ℚ) + round_bytes (1/200)) = 1/100
    rw [zero_add, round_bytes_idem]
    decide
  · exact round_bytes_idem

/-- Claim C10, counterexample: for a (user, chat) with no stored row the
balance reads 0 (non-negative) and a negative amount passes the guard, but
the SQL UPDATE matches no row: `subtract_bytes` returns `true` while the
store is unchanged, so the stored balance does not increase by the absolute
value of the rounded amount. -/
theorem subtract_missing_row_no_credit :
    0 ≤ get_balance ([] : Store) 0 0 ∧ round_bytes (-1) < 0 ∧
    subtract_bytes ([] : Store) 0 0 (-1) = (true, []) ∧
    get_balance (subtract_bytes ([] : Store) 0 0 (-1)).2 0 0 = 0 := by decide

/-- Claim C10, amended: for every (user, chat) that has a stored row and a
non-negative observed balance, and every amount with strictly negative
rounded value, the insufficient-funds guard cannot fire, `subtract_bytes`
returns `true`, and the stored balance increases by the absolute value of the
rounded amount (for a missing row the call still returns `true` but the
store is unchanged). -/
theorem subtract_negative_credits {s : Store} {u c : ℤ} {q v : ℚ}
    (hneg : round_bytes q < 0) (hbal : 0 ≤ get_balance s u c)
    (hrow : lookup_balance s u c = some v) :
    ¬ (get_balance s u c < round_bytes q) ∧
    (subtract_bytes s u c q).1 = true ∧
    lookup_balance (subtract_bytes s u c q).2 u c = some (v - round_bytes q) := by
  have hguard : ¬ (get_balance s u c < round_bytes q) :=
    not_lt.mpr (le_of_lt (lt_of_lt_of_le hneg hbal))
  refine ⟨hguard, ?_, ?_⟩
  · rw [subtract_success hguard]
  · rw [subtract_success hguard]
    show lookup_balance (upd_balance s u c (-(round_bytes q))) u c = _
    rw [lookup_upd_self, hrow]
    show some (v + -(round_bytes q)) = some (v - round_bytes q)
    rw [sub_eq_add_neg]

/-- Witness for the amended claim C10 at a concrete store. -/
theorem subtract_negative_credits_witness :
    round_bytes (-1 : ℚ) < 0 ∧ 0 ≤ get_balance ([((2, 3), 5)] : Store) 2 3 ∧
    lookup_balance ([((2, 3), 5)] : Store) 2 3 = some 5 ∧
    lookup_balance (subtract_bytes ([((2, 3), 5)] : Store) 2 3 (-1)).2 2 3 =
      some (5 - round_bytes (-1)) :=
  ⟨by decide, by decide, by decide,
    (subtract_negative_credits (by decide) (by decide) (by decide)).2.2⟩

/-- Claim C4: for every successful transfer (the `/send` flow, which
validates a positive rounded amount and rejects self-sends) of amount `q`
from sender `a` to recipient `b` in a chat, with `a ≠ b`, over a well-formed
store: the sender's observed balance decreases by exactly the rounded
amount, the recipient's observed balance increases by exactly the same
rounded amount, and the sum of all stored balances of that chat is
unchanged. -/
theorem transfer_conservation {s : Store} {a b c : ℤ} {q : ℚ} (hwf : WF s)
    (hab : a ≠ b) (hok : (send_bytes s a b c q).1 = SendOutcome.ok) :
    get_balance (send_bytes s a b c q).2 a c = get_balance s a c - round_bytes q ∧
    get_balance (send_bytes s a b c q).2 b c = get_balance s b c + round_bytes q ∧
    chat_total (send_bytes s a b c q).2 c = chat_total s c := by
  obtain ⟨hpos, hb0, hne, hbal⟩ := send_ok_inv hok
  have hrpos : 0 < round_bytes q := not_le.mp hpos
  rw [send_ok_eq hpos hb0 hne hbal]
  obtain ⟨v, hl⟩ : ∃ v, lookup_balance s a c = some v := by
    cases hl0 : lookup_balance s a c with
    | some v => exact ⟨v, rfl⟩
    | none =>
      exfalso
      apply hbal
      unfold get_balance
      rw [hl0]
      show round_bytes ((0 : ℚ)) < round_bytes q
      rw [round_bytes_zero]
      exact hrpos
  have hvprop := hwf.2 _ (lookup_mem hl)
  have hba : ((b, c) : ℤ × ℤ) ≠ (a, c) := fun hx => hne (congrArg Prod.fst hx)
  have hab2 : ((a, c) : ℤ × ℤ) ≠ (b, c) := fun hx => hab (congrArg Prod.fst hx)
  have hl1a : lookup_balance (upd_balance s a c (-(round_bytes q))) a c
      = some (v + -(round_bytes q)) := by
    rw [lookup_upd_self, hl]
    rfl
  have hl1b : lookup_balance (upd_balance s a c (-(round_bytes q))) b c
      = lookup_balance s b c := lookup_upd_other s hba _
  have hl2a : lookup_balance
      (add_bytes (upd_balance s a c (-(round_bytes q))) b c (round_bytes q)) a c
      = some (v + -(round_bytes q)) := by
    rw [lookup_add_other _ hab2, hl1a]
  have hl2b : lookup_balance
      (add_bytes (upd_balance s a c (-(round_bytes q))) b c (round_bytes q)) b c
      = some ((lookup_balance s b c).getD 0 + round_bytes q) := by
    rw [lookup_add_self, hl1b, round_bytes_idem]
  have hcr : centQ (round_bytes q) := round_bytes_centQ q
  have hwb : centQ ((lookup_balance s b c).getD 0) ∧
      0 ≤ (lookup_balance s b c).getD 0 := by
    cases hlb : lookup_balance s b c with
    | none => exact ⟨centQ_zero, le_refl 0⟩
    | some w =>
      have hw := hwf.2 _ (lookup_mem hlb)
      exact ⟨hw.2, hw.1⟩
  refine ⟨?_, ?_, ?_⟩
  · unfold get_balance
    rw [hl2a, hl]
    show round_bytes (v + -(round_bytes q)) = round_bytes v - round_bytes q
    rw [round_bytes_eq_of_centQ hvprop.2,
      round_bytes_eq_of_centQ (centQ_add hvprop.2 (centQ_neg hcr))]
    ring
  · unfold get_balance
    rw [hl2b]
    show round_bytes ((lookup_balance s b c).getD 0 + round_bytes q)
      = round_bytes ((lookup_balance s b c).getD 0) + round_bytes q
    rw [round_bytes_eq_of_centQ (centQ_add hwb.1 hcr),
      round_bytes_eq_of_centQ hwb.1]
  · have hnd1 : ((upd_balance s a c (-(round_bytes q))).map Prod.fst).Nodup := by
      rw [keys_upd]
      exact hwf.1
    rw [chat_total_add hnd1, round_bytes_idem, chat_total_upd hwf.1 hl]
    ring

/-- Witness for claim C4: a transfer of 4 bytes between two funded users. -/
theorem transfer_conservation_witness :
    WF ([((1, 7), 10), ((2, 7), 5)] : Store) ∧ (1 : ℤ) ≠ 2 ∧
    (send_bytes [((1, 7), 10), ((2, 7), 5)] 1 2 7 4).1 = SendOutcome.ok ∧
    get_balance (send_bytes [((1, 7), 10), ((2, 7), 5)] 1 2 7 4).2 1 7 =
      get_balance [((1, 7), 10), ((2, 7), 5)] 1 7 - round_bytes 4 ∧
    get_balance (send_bytes [((1, 7), 10), ((2, 7), 5)] 1 2 7 4).2 2 7 =
      get_balance [((1, 7), 10), ((2, 7), 5)] 2 7 + round_bytes 4 ∧
    chat_total (send_bytes [((1, 7), 10), ((2, 7), 5)] 1 2 7 4).2 7 =
      chat_total [((1, 7), 10), ((2, 7), 5)] 7 :=
  ⟨by decide, by decide, by decide,
    (transfer_conservation (by decide) (by decide) (by decide)).1,
    (transfer_conservation (by decide) (by decide) (by decide)).2.1,
    (transfer_conservation (by decide) (by decide) (by decide)).2.2⟩

/-- Claim C6: a transfer, flip, rain or `/send` attempted when the balance is
strictly below the required amount (the transfer amount, the flip stake
within its valid range, or `round_bytes(amount_per_user * count)` for a rain
with valid arguments) fails with the insufficient-funds result and leaves
the store - hence every balance in it - unchanged. -/
theorem insufficient_funds_no_change (s : Store) (a b u c : ℤ) (q : ℚ) (count : ℕ)
    (shuffle : List ℤ) (coin : Bool) :
    (get_balance s a c < round_bytes q → transfer_bytes s a b c q = (false, s)) ∧
    (¬ round_bytes q < 10 → ¬ 1000 < round_bytes q →
      get_balance s u c < round_bytes q →
      flip_command s u c q coin = (.insufficientFunds, s)) ∧
    (¬ round_bytes q ≤ 0 → ¬ count = 0 →
      get_balance s u c < round_bytes (round_bytes q * (count : ℚ)) →
      rain_command s u c q count shuffle = (.insufficientFunds, s)) ∧
    (¬ round_bytes q ≤ 0 → ¬ b = 0 → ¬ b = a → get_balance s a c < round_bytes q →
      send_bytes s a b c q = (.insufficientFunds, s)) :=
  ⟨fun h => transfer_fail h,
   fun h1 h2 h3 => flip_funds_eq h1 h2 h3 coin,
   fun h1 h2 h3 => rain_funds_eq shuffle h1 h2 h3,
   fun h1 h2 h3 h4 => by
    simp only [send_bytes]
    rw [if_neg h1, if_neg h2, if_neg h3, if_pos h4]⟩

/-- Witness for claim C6 on the empty store (balance 0) with amount 10. -/
theorem insufficient_funds_no_change_witness :
    (get_balance ([] : Store) 0 0 < round_bytes 10 ∧
      transfer_bytes ([] : Store) 0 1 0 10 = (false, []) ∧
      flip_command ([] : Store) 0 0 10 true = (.insufficientFunds, []) ∧
      rain_command ([] : Store) 0 0 10 2 [] = (.insufficientFunds, []) ∧
      send_bytes ([] : Store) 0 1 0 10 = (.insufficientFunds, [])) :=
  ⟨by decide,
   (insufficient_funds_no_change [] 0 1 0 0 10 2 [] true).1 (by decide),
   (insufficient_funds_no_change [] 0 1 0 0 10 2 [] true).2.1 (by decide) (by decide)
     (by decide),
   (insufficient_funds_no_change [] 0 1 0 0 10 2 [] true).2.2.1 (by decide) (by decide)
     (by decide),
   (insufficient_funds_no_change [] 0 1 0 0 10 2 [] true).2.2.2 (by decide) (by decide)
     (by decide) (by decide)⟩

/-- Claim C7: for every valid flip of rounded amount `a = round_bytes q` with
`10 ≤ a ≤ 1000` and balance at least `a`, over a well-formed store: on a win
the outcome carries `rake = round_bytes (a * 0.01)` and `winnings = a - rake`,
the total credited back equals `2 * a - rake`, and the observed balance
changes by exactly `+winnings`; on a loss the observed balance changes by
exactly `-a`. -/
theorem flip_rake_net {s : Store} {u c : ℤ} {q : ℚ} (hwf : WF s)
    (h10 : 10 ≤ round_bytes q) (h1000 : round_bytes q ≤ 1000)
    (hbal : round_bytes q ≤ get_balance s u c) :
    (flip_command s u c q true).1 =
      FlipOutcome.win (round_bytes (round_bytes q * (1/100)))
        (round_bytes q - round_bytes (round_bytes q * (1/100))) ∧
    round_bytes (round_bytes q +
        round_bytes (round_bytes q - round_bytes (round_bytes q * (1/100)))) =
      2 * round_bytes q - round_bytes (round_bytes q * (1/100)) ∧
    get_balance (flip_command s u c q true).2 u c =
      get_balance s u c + (round_bytes q - round_bytes (round_bytes q * (1/100))) ∧
    get_balance (flip_command s u c q false).2 u c =
      get_balance s u c - round_bytes q := by
  have h10n : ¬ round_bytes q < 10 := not_lt.mpr h10
  have h1000n : ¬ 1000 < round_bytes q := not_lt.mpr h1000
  have hbaln : ¬ get_balance s u c < round_bytes q := not_lt.mpr hbal
  have hc_a : centQ (round_bytes q) := round_bytes_centQ q
  have hc_rake : centQ (round_bytes (round_bytes q * (1/100))) := round_bytes_centQ _
  have hc_win : centQ (round_bytes q - round_bytes (round_bytes q * (1/100))) :=
    centQ_sub hc_a hc_rake
  have hwinn_eq : round_bytes (round_bytes q - round_bytes (round_bytes q * (1/100)))
      = round_bytes q - round_bytes (round_bytes q * (1/100)) :=
    round_bytes_eq_of_centQ hc_win
  have htot_eq : round_bytes (round_bytes q +
      round_bytes (round_bytes q - round_bytes (round_bytes q * (1/100))))
      = 2 * round_bytes q - round_bytes (round_bytes q * (1/100)) := by
    rw [hwinn_eq, round_bytes_eq_of_centQ (centQ_add hc_a hc_win)]
    ring
  obtain ⟨v, hl⟩ : ∃ v, lookup_balance s u c = some v := by
    cases hl0 : lookup_balance s u c with
    | some v => exact ⟨v, rfl⟩
    | none =>
      exfalso
      apply hbaln
      unfold get_balance
      rw [hl0]
      show round_bytes (0 : ℚ) < round_bytes q
      rw [round_bytes_zero]
      linarith
  have hv := hwf.2 _ (lookup_mem hl)
  have hvc : centQ v := hv.2
  have h2a : centQ (2 * round_bytes q) := by
    rw [two_mul]
    exact centQ_add hc_a hc_a
  refine ⟨?_, htot_eq, ?_, ?_⟩
  · rw [flip_win_eq h10n h1000n hbaln]
    show FlipOutcome.win (round_bytes (round_bytes q * (1/100)))
        (round_bytes (round_bytes q - round_bytes (round_bytes q * (1/100)))) = _
    rw [hwinn_eq]
  · rw [flip_win_eq h10n h1000n hbaln]
    show get_balance (add_bytes (upd_balance s u c (-(round_bytes q))) u c
        (round_bytes (round_bytes q +
          round_bytes (round_bytes q - round_bytes (round_bytes q * (1/100)))))) u c = _
    unfold get_balance
    rw [lookup_add_self, lookup_upd_self, hl]
    simp only [Option.map_some', Option.getD_some]
    rw [round_bytes_idem, htot_eq]
    have hcent : centQ (v + -(round_bytes q) +
        (2 * round_bytes q - round_bytes (round_bytes q * (1/100)))) :=
      centQ_add (centQ_add hvc (centQ_neg hc_a)) (centQ_sub h2a hc_rake)
    rw [round_bytes_eq_of_centQ hcent, round_bytes_eq_of_centQ hvc]
    ring
  · rw [flip_lose_eq h10n h1000n hbaln]
    unfold get_balance
    rw [lookup_upd_self, hl]
    simp only [Option.map_some', Option.getD_some]
    have hcent : centQ (v + -(round_bytes q)) := centQ_add hvc (centQ_neg hc_a)
    rw [round_bytes_eq_of_centQ hcent, round_bytes_eq_of_centQ hvc]
    ring

/-- Witness for claim C7: amount 100 from balance 500; here rake = 1.00,
winnings = 99.00, total credited back = 199.00, and the net change is +99 on
a win and -100 on a loss. -/
theorem flip_rake_net_witness :
    WF ([((1, 1), 500)] : Store) ∧ (10 : ℚ) ≤ round_bytes 100 ∧
    round_bytes (100 : ℚ) ≤ 1000 ∧
    round_bytes (100 : ℚ) ≤ get_balance [((1, 1), 500)] 1 1 ∧
    round_bytes (round_bytes (100 : ℚ) * (1/100)) = 1 ∧
    round_bytes (100 : ℚ) - round_bytes (round_bytes (100 : ℚ) * (1/100)) = 99 ∧
    round_bytes (round_bytes (100 : ℚ) +
        round_bytes (round_bytes (100 : ℚ) - round_bytes (round_bytes (100 : ℚ) * (1/100)))) = 199 ∧
    get_balance (flip_command [((1, 1), 500)] 1 1 100 true).2 1 1 =
      get_balance [((1, 1), 500)] 1 1 +
        (round_bytes (100 : ℚ) - round_bytes (round_bytes (100 : ℚ) * (1/100))) ∧
    get_balance (flip_command [((1, 1), 500)] 1 1 100 false).2 1 1 =
      get_balance [((1, 1), 500)] 1 1 - round_bytes 100 :=
  ⟨by decide, by decide, by decide, by decide, by decide, by decide, by decide,
    (flip_rake_net (by decide) (by decide) (by decide) (by decide)).2.2.1,
    (flip_rake_net (by decide) (by decide) (by decide) (by decide)).2.2.2⟩

/-- Claim C8, counterexample: for sender id 0 the Python truthiness check
`if exclude_user_id:` silently drops the sender exclusion, so with zero
eligible recipients other than the sender (here: no user but the sender, who
holds a positive balance in chat 7) and count 1, the rain does not fail with
the insufficient-recipients result - it succeeds, selecting the sender
itself. -/
theorem rain_zero_sender_counterexample :
    (([((0, 7), 10)] : Store).filter
        (fun p => decide (p.1.2 = 7 ∧ p.1.1 ≠ 0 ∧ 0 < p.2))).map (fun p => p.1.1) = [] ∧
    [(0 : ℤ)].Perm (eligible_users [((0, 7), 10)] 7 0) ∧
    (rain_command [((0, 7), 10)] 0 7 10 1 [0]).1 = RainOutcome.ok [0] := by
  refine ⟨by decide, ?_, by decide⟩
  have he : eligible_users ([((0, 7), 10)] : Store) 7 0 = [(0 : ℤ)] := by decide
  rw [he]

/-- Claim C8, amended: for every rain whose sender has a nonzero user id and
whose earlier validations pass (positive rounded per-user amount, nonzero
count, sufficient balance), if fewer than `count` eligible recipients exist -
users of the chat with positive balance, excluding the sender - then the
call fails with the insufficient-recipients result and the store is
unchanged; in particular the sender is not debited. -/
theorem rain_insufficient_recipients {s : Store} {u c : ℤ} {q : ℚ} {count : ℕ}
    {shuffle : List ℤ}
    (hu : u ≠ 0) (hapu : ¬ round_bytes q ≤ 0) (hcount : ¬ count = 0)
    (hbal : ¬ get_balance s u c < round_bytes (round_bytes q * (count : ℚ)))
    (hperm : shuffle.Perm (eligible_users s c u))
    (hfew : ((s.filter (fun p => decide (p.1.2 = c ∧ p.1.1 ≠ u ∧ 0 < p.2))).map
      (fun p => p.1.1)).length < count) :
    rain_command s u c q count shuffle = (.insufficientRecipients, s) := by
  have helig : eligible_users s c u =
      (s.filter (fun p => decide (p.1.2 = c ∧ p.1.1 ≠ u ∧ 0 < p.2))).map
        (fun p => p.1.1) := by
    unfold eligible_users
    rw [if_pos hu]
  apply rain_few_eq hapu hcount hbal
  rw [get_random_users_length count hperm, helig]
  exact lt_of_le_of_lt (min_le_right _ _) hfew

/-- Witness for the amended claim C8: sender 1 alone in chat 7 with balance
10 rains 10 on 1 recipient; no eligible recipient exists and the call fails
with no mutation. -/
theorem rain_insufficient_recipients_witness :
    ((1 : ℤ) ≠ 0) ∧ ¬ round_bytes (10 : ℚ) ≤ 0 ∧ ¬ (1 : ℕ) = 0 ∧
    ¬ get_balance ([((1, 7), 10)] : Store) 1 7 <
        round_bytes (round_bytes (10 : ℚ) * ((1 : ℕ) : ℚ)) ∧
    ([] : List ℤ).Perm (eligible_users [((1, 7), 10)] 7 1) ∧
    ((([((1, 7), 10)] : Store).filter
        (fun p => decide (p.1.2 = 7 ∧ p.1.1 ≠ 1 ∧ 0 < p.2))).map
      (fun p => p.1.1)).length < 1 ∧
    rain_command [((1, 7), 10)] 1 7 10 1 [] =
      (RainOutcome.insufficientRecipients, [((1, 7), 10)]) :=
  ⟨by decide, by decide, by decide, by decide, by decide, by decide,
    rain_insufficient_recipients (by decide) (by decide) (by decide) (by decide)
      (by decide) (by decide)⟩

end StanleyTG
